import Mathlib

/-!
# A shallow embedding of the SONiC ConfigDB connector

This file embeds `src/swsssdk/configdb.py` (class `ConfigDBConnector`) in
Lean 4 and proves properties of the embedding.

Modelling choices:

* Python strings are modelled as `List Char` (`Str` below); `str.split`,
  `str.join`, `str.upper`, `str.endswith` and slicing are modelled by
  executable recursive functions with the same semantics.
* A Python dict is modelled as an association list in insertion order;
  `d[k] = v` replaces the value in place when the key is present and
  appends otherwise (`dictInsert`).
* The Redis client is modelled at the level the code uses it:
  a `Store` maps each existing key to a non-empty hash.  `HGETALL` of a
  missing key returns the empty mapping (redis-py returns `{}`, never
  `None`), `HDEL` of the last field removes the key, `DEL` removes the key.
* `PY3K` byte decoding (`.decode('utf-8')`) is the identity in this model:
  all values are already text.
* The separator is the CONFIG_DB separator `'|'` (class constants
  `TABLE_NAME_SEPARATOR = KEY_SEPARATOR = '|'`).
-/

namespace ConfigDB

/-- Python `str`, modelled as its list of characters. -/
abbrev Str := List Char

/-- Python `s.split(sep)` for a single-character separator: split at every
occurrence of `sep`; the empty string yields `[""]`. -/
def splitChar (sep : Char) : Str → List Str
  | [] => [[]]
  | c :: rest =>
    match splitChar sep rest with
    | [] => [[]]
    | p :: ps => if c = sep then [] :: p :: ps else (c :: p) :: ps

/-- Python `s.split(sep, 1)` for a single-character separator, as used with
the subsequent arity check: `some (before, after)` when `sep` occurs in `s`
(split at the first occurrence), `none` when it does not (the Python call
returns a one-element list there, and unpacking it into two names raises
`ValueError`). -/
def splitFirstChar (sep : Char) : Str → Option (Str × Str)
  | [] => none
  | c :: rest =>
    if c = sep then some ([], rest)
    else
      match splitFirstChar sep rest with
      | none => none
      | some q => some (c :: q.1, q.2)

/-- Python `sep.join(xs)` for a single-character separator. -/
def joinChar (sep : Char) : List Str → Str
  | [] => []
  | [x] => x
  | x :: y :: rest => x ++ sep :: joinChar sep (y :: rest)

/-- Python `s.upper()` (ASCII, which is what table names use). -/
def upperStr (s : Str) : Str := s.map Char.toUpper

/-- Python `s.endswith('@')`. -/
def endsWithAtSign : Str → Bool
  | [] => false
  | [c] => c = '@'
  | _ :: c :: rest => endsWithAtSign (c :: rest)

/-- Python `p` being a prefix of `s` (used to model a Redis `KEYS` glob
pattern `p*` where `p` contains no glob metacharacter). -/
def startsWithStr : Str → Str → Bool
  | [], _ => true
  | _ :: _, [] => false
  | p :: ps, c :: cs => p = c && startsWithStr ps cs

/-- Python dict membership `k in d.keys()` for an association list. -/
def hasKey {α : Type} : List (Str × α) → Str → Bool
  | [], _ => false
  | p :: rest, k => p.1 = k || hasKey rest k

/-- Python dict lookup `d.get(k)` for an association list. -/
def getVal {α : Type} : List (Str × α) → Str → Option α
  | [], _ => none
  | p :: rest, k => if p.1 = k then some p.2 else getVal rest k

/-- Python dict assignment `d[k] = v`: replace in place when `k` is
present, append otherwise. -/
def dictInsert {α : Type} : List (Str × α) → Str → α → List (Str × α)
  | [], k, v => [(k, v)]
  | p :: rest, k, v => if p.1 = k then (k, v) :: rest else p :: dictInsert rest k v

/-- A typed column value: a scalar string or a list of strings
(`configdb.py` marks list-typed columns with a trailing `'@'` on the wire). -/
inductive Value where
  | scalar (s : Str)
  | list (xs : List Str)
deriving DecidableEq

/-- A typed row: mapping from column name to `Value`, in insertion order. -/
abbrev TypedRow := List (Str × Value)

/-- A raw Redis hash: mapping from field name to string value. -/
abbrev RawHash := List (Str × Str)

/-- The Redis database: mapping from key to hash.  A key is present exactly
when its hash is non-empty (Redis removes a hash key when its last field is
deleted). -/
abbrev Store := List (Str × RawHash)

/-- The sentinel field name (and value) `"NULL"` used for columnless rows. -/
def nullField : Str := "NULL".toList

/-- The init-indicator key `CONFIG_DB_INITIALIZED`. -/
def initIndicator : Str := "CONFIG_DB_INITIALIZED".toList

/-- One iteration of the decoding loop of `__raw_to_typed`. -/
def decodeStep (acc : TypedRow) (p : Str × Str) : TypedRow :=
  if p.1 = nullField then acc
  else if endsWithAtSign p.1 then
    dictInsert acc p.1.dropLast (Value.list (splitChar ',' p.2))
  else dictInsert acc p.1 (Value.scalar p.2)

/-- `__raw_to_typed` on an actual hash.  (The Python `None` input branch is
unreachable through `hgetall`, which returns `{}` for a missing key.) -/
def raw_to_typed (raw : RawHash) : TypedRow := raw.foldl decodeStep []

/-- One iteration of the encoding loop of `__typed_to_raw`.  (`str(value)`
of a string is the identity.) -/
def encodeStep (acc : RawHash) (p : Str × Value) : RawHash :=
  match p.2 with
  | .scalar s => dictInsert acc p.1 s
  | .list xs => dictInsert acc (p.1 ++ ['@']) (joinChar ',' xs)

/-- `__typed_to_raw` on an actual row (the `None` case is handled by the
callers' `data == None` branches before encoding). -/
def typed_to_raw (t : TypedRow) : RawHash :=
  if t = [] then [(nullField, nullField)] else t.foldl encodeStep []

/-- A structured key: Python passes either a string or a tuple of strings. -/
inductive PKey where
  | scalar (s : Str)
  | tup (xs : List Str)
deriving DecidableEq

/-- `ConfigDBConnector.serialize_key`: join tuple segments with the
separator; `str(key)` of a string key is the identity. -/
def serialize_key : PKey → Str
  | .tup xs => joinChar '|' xs
  | .scalar s => s

/-- `ConfigDBConnector.deserialize_key`: split on the separator; a result
of more than one token becomes a tuple, otherwise the input is returned. -/
def deserialize_key (k : Str) : PKey :=
  if (splitChar '|' k).length > 1 then .tup (splitChar '|' k) else .scalar k

/-- Redis `DEL key`. -/
def delKey : Store → Str → Store
  | [], _ => []
  | p :: rest, K => if p.1 = K then delKey rest K else p :: delKey rest K

/-- Redis `HGETALL key`: the hash, or the empty mapping when the key does
not exist (redis-py returns `{}`, not `None`). -/
def hgetall (s : Store) (K : Str) : RawHash := (getVal s K).getD []

/-- Remove one field from a hash. -/
def removeField : RawHash → Str → RawHash
  | [], _ => []
  | p :: rest, f => if p.1 = f then removeField rest f else p :: removeField rest f

/-- Rebind a key to a hash, keeping the invariant that a key exists exactly
when its hash is non-empty. -/
def storeSet (s : Store) (K : Str) (h : RawHash) : Store :=
  if h = [] then delKey s K else dictInsert s K h

/-- Redis `HMSET key fields`: set each field in turn (creating the key if
missing). -/
def hmset (s : Store) (K : Str) (fields : RawHash) : Store :=
  storeSet s K (fields.foldl (fun h p => dictInsert h p.1 p.2) (hgetall s K))

/-- Redis `HDEL key f` (deleting the last field deletes the key). -/
def hdel (s : Store) (K : Str) (f : Str) : Store :=
  storeSet s K (removeField (hgetall s K) f)

/-- The flat key `'{}{}{}'.format(table.upper(), TABLE_NAME_SEPARATOR, key)`
of a row. -/
def hashKey (table key : Str) : Str := upperStr table ++ '|' :: key

/-- The wire field name deleted by the pruning loop of `set_entry` for one
typed column: `k + '@'` when the current value is a list, else `k`
(`serialize_key` of a non-tuple field name is the identity). -/
def pruneName (p : Str × Value) : Str :=
  match p.2 with
  | .list _ => p.1 ++ ['@']
  | .scalar _ => p.1

/-- `ConfigDBConnector.get_entry`. -/
def get_entry (s : Store) (table : Str) (key : PKey) : TypedRow :=
  raw_to_typed (hgetall s (hashKey table (serialize_key key)))

/-- `ConfigDBConnector.set_entry`: `None` data deletes the row; otherwise
read the current entry, write the encoded data, then delete every wire
field of a current column whose name is not a key of `data`. -/
def set_entry (s : Store) (table : Str) (key : PKey) (data : Option TypedRow) : Store :=
  let K := hashKey table (serialize_key key)
  match data with
  | none => delKey s K
  | some d =>
    let original := raw_to_typed (hgetall s K)
    let s1 := hmset s K (typed_to_raw d)
    (original.filter (fun p => !(hasKey d p.1))).foldl (fun st p => hdel st K (pruneName p)) s1

/-- `ConfigDBConnector.mod_entry`: `None` data deletes the row; otherwise
write the encoded data, deleting nothing. -/
def mod_entry (s : Store) (table : Str) (key : PKey) (data : Option TypedRow) : Store :=
  let K := hashKey table (serialize_key key)
  match data with
  | none => delKey s K
  | some d => hmset s K (typed_to_raw d)

/-- `ConfigDBConnector.delete_table`: delete every key matching the glob
`upper(table)+sep+'*'`; for a table name without glob metacharacters these
are exactly the keys with that prefix. -/
def delete_table (s : Store) (table : Str) : Store :=
  ((s.map Prod.fst).filter (fun K => startsWithStr (upperStr table ++ ['|']) K)).foldl
    (fun st K => delKey st K) s

/-- The argument of `mod_config`: tables to `None` (delete the table) or to
rows, each row to `None` (delete the row) or to data. -/
abbrev Config := List (Str × Option (List (PKey × Option TypedRow)))

/-- `ConfigDBConnector.mod_config`. -/
def mod_config (s : Store) (cfg : Config) : Store :=
  cfg.foldl
    (fun st p =>
      match p.2 with
      | none => delete_table st p.1
      | some rows => rows.foldl (fun st2 q => mod_entry st2 p.1 q.1 q.2) st)
    s

/-- A pubsub item as `listen` reads it: a type tag (`'pmessage'` for
pattern-matched messages) and a channel name
(`__keyspace@<db>__:<key>` for keyspace events). -/
structure Event where
  type : Str
  channel : Str
deriving DecidableEq

/-- The body of the `listen` loop for one pubsub item, run against the
store state `s` at the moment of the fetch.  Returns the invocation of the
registered handler — `(table, key argument, data argument)` — performed by
`__fire`, or `none` when no handler is invoked.  The key passed to the
handler is the raw remainder string `row` (a Python `str`, embedded as
`PKey.scalar`).  `handlers` is the set of tables with a registered handler
(`__fire` looks the callback up by table name, so the invoked callback is
the registered one by construction).  A channel without `':'` would raise
`IndexError` in Python; keyspace-event channels always contain it, and the
model maps that case to no invocation. -/
def processEvent (handlers : List Str) (s : Store) (e : Event) : Option (Str × PKey × TypedRow) :=
  if e.type = "pmessage".toList then
    match splitFirstChar ':' e.channel with
    | none => none
    | some q =>
      match splitFirstChar '|' q.2 with
      | none => none
      | some tr =>
        if tr.1 ∈ handlers then
          some (tr.1, PKey.scalar tr.2, raw_to_typed (hgetall s q.2))
        else none
  else none

/-- `ConfigDBConnector.listen` over a finite segment of the event stream,
collecting the handler invocations in order (the store is read afresh at
each event; `s` is its state during the segment). -/
def listen (handlers : List Str) (s : Store) (events : List Event) :
    List (Str × PKey × TypedRow) :=
  events.filterMap (processEvent handlers s)

/-- A pubsub item as `__wait_for_db_init` reads it, together with the value
a `GET` of the init indicator returns at the moment this item is processed
(the store may be mutated concurrently, so the value is an oracle attached
to the event). -/
structure WEvent where
  type : Str
  channel : Str
  indicatorNow : Option Str
deriving DecidableEq, Inhabited

/-- Python truthiness of a `GET` result: `None` and the empty string are
falsy. -/
def truthy : Option Str → Bool
  | none => false
  | some s => !s.isEmpty

/-- Whether one pubsub item releases the `__wait_for_db_init` loop: it is a
`pmessage`, the key parsed from its channel is the init indicator, and the
re-read of the indicator at that moment is truthy. -/
def releasing (e : WEvent) : Bool :=
  e.type = "pmessage".toList &&
    (match splitFirstChar ':' e.channel with
     | none => false
     | some q => q.2 = initIndicator && truthy e.indicatorNow)

/-- The `for item in pubsub.listen()` loop of `__wait_for_db_init`: the
index of the first releasing item, or `none` when the segment contains
none (the loop is still blocked). -/
def waitLoop : List WEvent → Option Nat
  | [] => none
  | e :: rest => if releasing e then some 0 else (waitLoop rest).map (· + 1)

/-- Outcome of `__wait_for_db_init` on a finite segment of the event
stream: returned before subscribing, returned after consuming `i + 1`
items, or still blocked. -/
inductive WaitOutcome where
  | immediate
  | afterEvents (i : Nat)
  | blocked
deriving DecidableEq

/-- `ConfigDBConnector.__wait_for_db_init`: `initial` is what
`GET CONFIG_DB_INITIALIZED` returns at call time, `events` the pubsub items
subsequently delivered for the subscribed pattern. -/
def wait_for_db_init (initial : Option Str) (events : List WEvent) : WaitOutcome :=
  if truthy initial then .immediate
  else
    match waitLoop events with
    | some i => .afterEvents i
    | none => .blocked

/-! ## Basic lemmas about the dictionary and string primitives -/

theorem getVal_dictInsert_self {α : Type} (m : List (Str × α)) (k : Str) (v : α) :
    getVal (dictInsert m k v) k = some v := by
  induction m with
  | nil => simp [dictInsert, getVal]
  | cons p rest ih =>
    by_cases h : p.1 = k
    · simp [dictInsert, getVal, h]
    · simp [dictInsert, getVal, h, ih]

theorem getVal_dictInsert_ne {α : Type} (m : List (Str × α)) (k k' : Str) (v : α)
    (h : k' ≠ k) : getVal (dictInsert m k v) k' = getVal m k' := by
  induction m with
  | nil => simp [dictInsert, getVal, Ne.symm h]
  | cons p rest ih =>
    by_cases hp : p.1 = k
    · simp [dictInsert, getVal, hp, Ne.symm h]
    · by_cases hp' : p.1 = k'
      · rw [dictInsert, if_neg hp, getVal, if_pos hp', getVal, if_pos hp']
      · rw [dictInsert, if_neg hp, getVal, if_neg hp', getVal, if_neg hp', ih]

theorem mem_dictInsert {α : Type} {m : List (Str × α)} {k : Str} {v : α} {p : Str × α}
    (h : p ∈ dictInsert m k v) : p = (k, v) ∨ p ∈ m := by
  induction m with
  | nil => simpa [dictInsert] using h
  | cons q rest ih =>
    by_cases hq : q.1 = k
    · simp only [dictInsert, if_pos hq, List.mem_cons] at h
      rcases h with h | h
      · exact Or.inl h
      · exact Or.inr (List.mem_cons_of_mem _ h)
    · simp only [dictInsert, if_neg hq, List.mem_cons] at h
      rcases h with h | h
      · exact Or.inr (h ▸ List.mem_cons_self _ _)
      · rcases ih h with h | h
        · exact Or.inl h
        · exact Or.inr (List.mem_cons_of_mem _ h)

theorem dictInsert_fresh {α : Type} (m : List (Str × α)) (k : Str) (v : α)
    (h : hasKey m k = false) : dictInsert m k v = m ++ [(k, v)] := by
  induction m with
  | nil => simp [dictInsert]
  | cons p rest ih =>
    simp only [hasKey, Bool.or_eq_false_iff, decide_eq_false_iff_not] at h
    simp [dictInsert, h.1, ih h.2]

theorem hasKey_eq_isSome_getVal {α : Type} (m : List (Str × α)) (k : Str) :
    hasKey m k = (getVal m k).isSome := by
  induction m with
  | nil => simp [hasKey, getVal]
  | cons p rest ih =>
    by_cases h : p.1 = k
    · simp [hasKey, getVal, h]
    · simp [hasKey, getVal, h, ih]

theorem getVal_eq_none_of_hasKey_false {α : Type} {m : List (Str × α)} {k : Str}
    (h : hasKey m k = false) : getVal m k = none := by
  rw [hasKey_eq_isSome_getVal] at h
  exact Option.not_isSome_iff_eq_none.mp (by simp [h])

theorem hasKey_true_iff {α : Type} (m : List (Str × α)) (k : Str) :
    hasKey m k = true ↔ k ∈ m.map Prod.fst := by
  induction m with
  | nil => simp [hasKey]
  | cons p rest ih =>
    simp only [hasKey, Bool.or_eq_true, decide_eq_true_eq, ih, List.map_cons, List.mem_cons]
    exact or_congr ⟨fun h => h.symm, fun h => h.symm⟩ Iff.rfl

theorem getVal_some_mem {α : Type} {m : List (Str × α)} {k : Str} {v : α}
    (h : getVal m k = some v) : (k, v) ∈ m := by
  induction m with
  | nil => simp [getVal] at h
  | cons p rest ih =>
    by_cases hp : p.1 = k
    · simp only [getVal, if_pos hp, Option.some.injEq] at h
      have hkv : (k, v) = p := by
        rw [← hp, ← h]
      rw [hkv]
      exact List.mem_cons_self _ _
    · simp only [getVal, if_neg hp] at h
      exact List.mem_cons_of_mem _ (ih h)

theorem getVal_of_mem_nodup {α : Type} {m : List (Str × α)} {p : Str × α}
    (hnd : (m.map Prod.fst).Nodup) (h : p ∈ m) : getVal m p.1 = some p.2 := by
  induction m with
  | nil => simp at h
  | cons q rest ih =>
    simp only [List.map_cons, List.nodup_cons] at hnd
    rcases List.mem_cons.mp h with h | h
    · simp [getVal, h]
    · have hq : q.1 ≠ p.1 := by
        intro he
        exact hnd.1 (he ▸ List.mem_map_of_mem Prod.fst h)
      simp [getVal, hq, ih hnd.2 h]

/-! lemmas about `splitChar`, `joinChar`, `splitFirstChar` -/

theorem splitChar_ne_nil (sep : Char) (s : Str) : splitChar sep s ≠ [] := by
  cases s with
  | nil => simp [splitChar]
  | cons c rest =>
    simp only [splitChar]
    cases splitChar sep rest with
    | nil => simp
    | cons p ps =>
      by_cases h : c = sep <;> simp [h]

theorem splitChar_sepFree (sep : Char) (s : Str) (h : sep ∉ s) :
    splitChar sep s = [s] := by
  induction s with
  | nil => simp [splitChar]
  | cons c rest ih =>
    simp only [List.mem_cons, not_or] at h
    rw [splitChar, ih h.2]
    simp [Ne.symm h.1]

theorem splitChar_append (sep : Char) (a rest : Str) (h : sep ∉ a) :
    splitChar sep (a ++ sep :: rest) = a :: splitChar sep rest := by
  induction a with
  | nil =>
    simp only [List.nil_append, splitChar]
    cases hs : splitChar sep rest with
    | nil => exact absurd hs (splitChar_ne_nil sep rest)
    | cons p ps => simp
  | cons c a ih =>
    simp only [List.mem_cons, not_or] at h
    rw [List.cons_append, splitChar, ih h.2]
    simp [Ne.symm h.1]

theorem splitChar_joinChar (sep : Char) (xs : List Str) (hne : xs ≠ [])
    (h : ∀ x ∈ xs, sep ∉ x) : splitChar sep (joinChar sep xs) = xs := by
  induction xs with
  | nil => exact absurd rfl hne
  | cons x ys ih =>
    cases ys with
    | nil =>
      rw [joinChar]
      exact splitChar_sepFree sep x (h x (List.mem_cons_self _ _))
    | cons y zs =>
      rw [joinChar, splitChar_append sep x _ (h x (List.mem_cons_self _ _))]
      rw [ih (by simp) (fun z hz => h z (List.mem_cons_of_mem _ hz))]

theorem splitFirstChar_none (sep : Char) (s : Str) (h : sep ∉ s) :
    splitFirstChar sep s = none := by
  induction s with
  | nil => rfl
  | cons c rest ih =>
    simp only [List.mem_cons, not_or] at h
    simp [splitFirstChar, Ne.symm h.1, ih h.2]

theorem splitFirstChar_append (sep : Char) (a rest : Str) (h : sep ∉ a) :
    splitFirstChar sep (a ++ sep :: rest) = some (a, rest) := by
  induction a with
  | nil => simp [splitFirstChar]
  | cons c a ih =>
    simp only [List.mem_cons, not_or] at h
    rw [List.cons_append, splitFirstChar]
    simp [Ne.symm h.1, ih h.2]

theorem endsWithAtSign_concat (s : Str) : endsWithAtSign (s ++ ['@']) = true := by
  induction s with
  | nil => rfl
  | cons c rest ih =>
    cases rest with
    | nil => rfl
    | cons d tail => simpa [endsWithAtSign] using ih

theorem dropLast_concat_at (s : Str) : (s ++ ['@']).dropLast = s := by
  simp

theorem eq_concat_at_of_endsWithAtSign {s : Str} (h : endsWithAtSign s = true) :
    s.dropLast ++ ['@'] = s := by
  induction s with
  | nil => simp [endsWithAtSign] at h
  | cons c rest ih =>
    cases rest with
    | nil =>
      simp only [endsWithAtSign, decide_eq_true_eq] at h
      simp [h]
    | cons d tail =>
      have := ih (by simpa [endsWithAtSign] using h)
      simp only [List.dropLast_cons₂, List.cons_append, this]

theorem not_endsWithAtSign_nullField : endsWithAtSign nullField = false := by decide

/-! ## Store-level lemmas -/

theorem getVal_delKey_self (s : Store) (K : Str) : getVal (delKey s K) K = none := by
  induction s with
  | nil => simp [delKey, getVal]
  | cons p rest ih =>
    by_cases h : p.1 = K
    · simp [delKey, h, ih]
    · simp [delKey, getVal, h, ih]

theorem getVal_delKey_ne (s : Store) (K K' : Str) (h : K' ≠ K) :
    getVal (delKey s K) K' = getVal s K' := by
  induction s with
  | nil => simp [delKey]
  | cons p rest ih =>
    by_cases hp : p.1 = K
    · rw [delKey, if_pos hp, ih, getVal, if_neg (by rw [hp]; exact Ne.symm h)]
    · by_cases hp' : p.1 = K'
      · rw [delKey, if_neg hp, getVal, if_pos hp', getVal, if_pos hp']
      · rw [delKey, if_neg hp, getVal, if_neg hp', getVal, if_neg hp', ih]

theorem hasKey_delKey_self (s : Store) (K : Str) : hasKey (delKey s K) K = false := by
  rw [hasKey_eq_isSome_getVal, getVal_delKey_self]
  rfl

theorem getVal_storeSet_self (s : Store) (K : Str) (h : RawHash) :
    getVal (storeSet s K h) K = if h = [] then none else some h := by
  by_cases hh : h = []
  · rw [storeSet, if_pos hh, if_pos hh, getVal_delKey_self]
  · rw [storeSet, if_neg hh, if_neg hh, getVal_dictInsert_self]

theorem hgetall_storeSet_self (s : Store) (K : Str) (h : RawHash) :
    hgetall (storeSet s K h) K = h := by
  rw [hgetall, getVal_storeSet_self]
  by_cases hh : h = []
  · rw [if_pos hh, hh]
    rfl
  · rw [if_neg hh]
    rfl

theorem getVal_storeSet_ne (s : Store) (K K' : Str) (h : RawHash) (hne : K' ≠ K) :
    getVal (storeSet s K h) K' = getVal s K' := by
  by_cases hh : h = []
  · rw [storeSet, if_pos hh, getVal_delKey_ne _ _ _ hne]
  · rw [storeSet, if_neg hh, getVal_dictInsert_ne _ _ _ _ hne]

theorem hgetall_storeSet_ne (s : Store) (K K' : Str) (h : RawHash) (hne : K' ≠ K) :
    hgetall (storeSet s K h) K' = hgetall s K' := by
  rw [hgetall, hgetall, getVal_storeSet_ne _ _ _ _ hne]

theorem hgetall_hmset_self (s : Store) (K : Str) (fields : RawHash) :
    hgetall (hmset s K fields) K =
      fields.foldl (fun h p => dictInsert h p.1 p.2) (hgetall s K) := by
  rw [hmset, hgetall_storeSet_self]

theorem hgetall_hmset_ne (s : Store) (K K' : Str) (fields : RawHash) (hne : K' ≠ K) :
    hgetall (hmset s K fields) K' = hgetall s K' := by
  rw [hmset, hgetall_storeSet_ne _ _ _ _ hne]

theorem hgetall_hdel_self (s : Store) (K f : Str) :
    hgetall (hdel s K f) K = removeField (hgetall s K) f := by
  rw [hdel, hgetall_storeSet_self]

theorem hgetall_hdel_ne (s : Store) (K K' f : Str) (hne : K' ≠ K) :
    hgetall (hdel s K f) K' = hgetall s K' := by
  rw [hdel, hgetall_storeSet_ne _ _ _ _ hne]

/-- The hash at `K` after the pruning loop of `set_entry`: the folded
`HDEL`s act like iterated `removeField` on that hash. -/
theorem hgetall_foldl_hdel {α : Type} (nm : α → Str) (L : List α) (K : Str) :
    ∀ s : Store, hgetall (L.foldl (fun st a => hdel st K (nm a)) s) K =
      L.foldl (fun h a => removeField h (nm a)) (hgetall s K) := by
  induction L with
  | nil => intro s; rfl
  | cons a L ih =>
    intro s
    rw [List.foldl_cons, List.foldl_cons, ih, hgetall_hdel_self]

theorem hgetall_foldl_hdel_ne {α : Type} (nm : α → Str) (L : List α) (K K' : Str)
    (hne : K' ≠ K) :
    ∀ s : Store, hgetall (L.foldl (fun st a => hdel st K (nm a)) s) K' = hgetall s K' := by
  induction L with
  | nil => intro s; rfl
  | cons a L ih =>
    intro s
    rw [List.foldl_cons, ih, hgetall_hdel_ne _ _ _ _ hne]

theorem getVal_removeField_ne (h : RawHash) (f x : Str) (hne : f ≠ x) :
    getVal (removeField h f) x = getVal h x := by
  induction h with
  | nil => simp [removeField]
  | cons p rest ih =>
    by_cases hp : p.1 = f
    · rw [removeField, if_pos hp, ih, getVal, if_neg (by rw [hp]; exact hne)]
    · by_cases hp' : p.1 = x
      · rw [removeField, if_neg hp, getVal, if_pos hp', getVal, if_pos hp']
      · rw [removeField, if_neg hp, getVal, if_neg hp', getVal, if_neg hp', ih]

theorem getVal_foldl_removeField {α : Type} (nm : α → Str) (L : List α) (x : Str)
    (hx : ∀ a ∈ L, nm a ≠ x) :
    ∀ h : RawHash, getVal (L.foldl (fun hh a => removeField hh (nm a)) h) x = getVal h x := by
  induction L with
  | nil => intro h; rfl
  | cons a L ih =>
    intro h
    rw [List.foldl_cons, ih (fun b hb => hx b (List.mem_cons_of_mem _ hb)),
      getVal_removeField_ne _ _ _ (hx a (List.mem_cons_self _ _))]

/-- Writing fields whose names all differ from `x` does not change field `x`. -/
theorem getVal_foldl_dictInsert_ne (L : RawHash) (x : Str) (hx : ∀ p ∈ L, p.1 ≠ x) :
    ∀ h : RawHash, getVal (L.foldl (fun hh p => dictInsert hh p.1 p.2) h) x = getVal h x := by
  induction L with
  | nil => intro h; rfl
  | cons p L ih =>
    intro h
    rw [List.foldl_cons, ih (fun q hq => hx q (List.mem_cons_of_mem _ hq)),
      getVal_dictInsert_ne _ _ _ _ (Ne.symm (hx p (List.mem_cons_self _ _)))]

/-- Writing a batch of fields with pairwise-distinct names sets each of
them to its given value. -/
theorem getVal_foldl_dictInsert_mem (L : RawHash) (f : Str) (w : Str)
    (hnd : (L.map Prod.fst).Nodup) (hm : (f, w) ∈ L) :
    ∀ h : RawHash, getVal (L.foldl (fun hh p => dictInsert hh p.1 p.2) h) f = some w := by
  induction L with
  | nil => simp at hm
  | cons p L ih =>
    intro h
    simp only [List.map_cons, List.nodup_cons] at hnd
    rcases List.mem_cons.mp hm with hm | hm
    · subst hm
      have hfresh : ∀ q ∈ L, q.1 ≠ f := by
        intro q hq he
        apply hnd.1
        rw [← he]
        exact List.mem_map.mpr ⟨q, hq, rfl⟩
      rw [List.foldl_cons, getVal_foldl_dictInsert_ne L f hfresh, getVal_dictInsert_self]
    · rw [List.foldl_cons]
      exact ih hnd.2 hm _

/-- Inserting the sentinel field `NULL` (with any value) into a hash does
not change its decoding: the decode loop skips the field. -/
theorem foldl_decodeStep_dictInsert_null (v : Str) :
    ∀ (h : RawHash) (acc : TypedRow),
      (dictInsert h nullField v).foldl decodeStep acc = h.foldl decodeStep acc := by
  intro h
  induction h with
  | nil =>
    intro acc
    simp [dictInsert, decodeStep]
  | cons p rest ih =>
    intro acc
    by_cases hp : p.1 = nullField
    · rw [dictInsert, if_pos hp, List.foldl_cons, List.foldl_cons]
      have h1 : decodeStep acc (nullField, v) = acc := by simp [decodeStep]
      have h2 : decodeStep acc p = acc := by simp [decodeStep, hp]
      rw [h1, h2]
    · rw [dictInsert, if_neg hp, List.foldl_cons, List.foldl_cons, ih]

theorem raw_to_typed_dictInsert_null (h : RawHash) (v : Str) :
    raw_to_typed (dictInsert h nullField v) = raw_to_typed h :=
  foldl_decodeStep_dictInsert_null v h []

/-! ## Claim theorems -/

/-- C3 (amended): for every tuple key of at least two separator-free
segments, and for every separator-free scalar key, deserializing the
serialization gives the key back.  (The original claim also covered
one-segment tuples; the counterexample `serialize_singleton_tuple_cex`
shows those come back as scalars.) -/
theorem serialize_deserialize_roundtrip (xs : List Str) (s : Str)
    (hlen : 2 ≤ xs.length) (hxs : ∀ x ∈ xs, '|' ∉ x) (hs : '|' ∉ s) :
    deserialize_key (serialize_key (PKey.tup xs)) = PKey.tup xs ∧
    deserialize_key (serialize_key (PKey.scalar s)) = PKey.scalar s := by
  constructor
  · have hne : xs ≠ [] := by
      intro h
      rw [h] at hlen
      simp at hlen
    have hsplit : splitChar '|' (joinChar '|' xs) = xs := splitChar_joinChar _ _ hne hxs
    rw [serialize_key, deserialize_key, hsplit, if_pos (by omega)]
  · rw [serialize_key, deserialize_key, splitChar_sepFree _ _ hs, if_neg (by simp)]

/-- Witness for `serialize_deserialize_roundtrip` at the two-segment tuple
`("a", "b")` and the scalar `"k"`. -/
theorem serialize_deserialize_roundtrip_witness :
    deserialize_key (serialize_key (PKey.tup ["a".toList, "b".toList])) =
        PKey.tup ["a".toList, "b".toList] ∧
    deserialize_key (serialize_key (PKey.scalar "k".toList)) = PKey.scalar "k".toList :=
  serialize_deserialize_roundtrip ["a".toList, "b".toList] "k".toList (by decide)
    (by decide) (by decide)

/-- Counterexample to C3 as stated: the one-element tuple `("a",)` has only
separator-free segments, yet `deserialize_key (serialize_key ("a",))` is
the scalar `"a"`, not the tuple. -/
theorem serialize_singleton_tuple_cex :
    ('|' ∉ "a".toList) ∧
    deserialize_key (serialize_key (PKey.tup ["a".toList])) ≠ PKey.tup ["a".toList] := by
  decide

/-- C7: reading a row that does not exist in the store returns the empty
mapping (never an absent value: `HGETALL` of a missing key is `{}` and the
decoder maps it to `{}`). -/
theorem get_entry_missing_row (s : Store) (t : Str) (k : PKey)
    (h : hasKey s (hashKey t (serialize_key k)) = false) :
    get_entry s t k = [] := by
  rw [get_entry, hgetall, getVal_eq_none_of_hasKey_false h]
  rfl

/-- Witness for `get_entry_missing_row` on the empty store. -/
theorem get_entry_missing_row_witness :
    hasKey ([] : Store) (hashKey "T".toList (serialize_key (PKey.scalar "k".toList))) = false ∧
    get_entry [] "T".toList (PKey.scalar "k".toList) = [] :=
  ⟨by decide, get_entry_missing_row [] "T".toList (PKey.scalar "k".toList) (by decide)⟩

/-- C9: `mod_entry` with empty data leaves the decoded row unchanged (the
sentinel field it writes is skipped on decode and nothing is deleted), and
creates a columnless row — the bare sentinel hash — when the row did not
exist. -/
theorem mod_entry_empty_data (s : Store) (t : Str) (k : PKey) :
    get_entry (mod_entry s t k (some [])) t k = get_entry s t k ∧
    (hasKey s (hashKey t (serialize_key k)) = false →
      hgetall (mod_entry s t k (some [])) (hashKey t (serialize_key k)) =
        [(nullField, nullField)]) := by
  have hm : hgetall (mod_entry s t k (some [])) (hashKey t (serialize_key k)) =
      dictInsert (hgetall s (hashKey t (serialize_key k))) nullField nullField := by
    simp only [mod_entry]
    rw [hgetall_hmset_self]
    rfl
  constructor
  · rw [get_entry, get_entry, hm, raw_to_typed_dictInsert_null]
  · intro h
    rw [hm, hgetall, getVal_eq_none_of_hasKey_false h]
    rfl

/-- Witness for `mod_entry_empty_data`: both conjuncts evaluated on a
concrete store holding one row of table `T`. -/
theorem mod_entry_empty_data_witness :
    get_entry (mod_entry [("T|r".toList, [("a".toList, "1".toList)])] "t".toList
        (PKey.scalar "r".toList) (some [])) "t".toList (PKey.scalar "r".toList) =
      get_entry [("T|r".toList, [("a".toList, "1".toList)])] "t".toList
        (PKey.scalar "r".toList) ∧
    (hasKey ([("T|r".toList, [("a".toList, "1".toList)])] : Store)
        (hashKey "t".toList (serialize_key (PKey.scalar "q".toList))) = false →
      hgetall (mod_entry [("T|r".toList, [("a".toList, "1".toList)])] "t".toList
          (PKey.scalar "q".toList) (some []))
        (hashKey "t".toList (serialize_key (PKey.scalar "q".toList))) =
        [(nullField, nullField)]) :=
  ⟨(mod_entry_empty_data [("T|r".toList, [("a".toList, "1".toList)])] "t".toList
      (PKey.scalar "r".toList)).1,
   (mod_entry_empty_data [("T|r".toList, [("a".toList, "1".toList)])] "t".toList
      (PKey.scalar "q".toList)).2⟩

/-- C4: on a stored row `{a: 1, b: 2}`, `set_entry` with `{a: 9}` prunes
the unmentioned field `b` (a later read gives `{a: 9}`), while `mod_entry`
with the same data retains it (a later read gives `{a: 9, b: 2}`). -/
theorem set_entry_prunes_mod_entry_retains (s : Store) (t : Str) (k : PKey)
    (h : hgetall s (hashKey t (serialize_key k)) =
      [("a".toList, "1".toList), ("b".toList, "2".toList)]) :
    get_entry (set_entry s t k (some [("a".toList, Value.scalar "9".toList)])) t k =
      [("a".toList, Value.scalar "9".toList)] ∧
    get_entry (mod_entry s t k (some [("a".toList, Value.scalar "9".toList)])) t k =
      [("a".toList, Value.scalar "9".toList), ("b".toList, Value.scalar "2".toList)] := by
  constructor
  · rw [get_entry]
    simp only [set_entry]
    rw [hgetall_foldl_hdel, hgetall_hmset_self, h]
    decide
  · rw [get_entry]
    simp only [mod_entry]
    rw [hgetall_hmset_self, h]
    decide

/-- Witness for `set_entry_prunes_mod_entry_retains` on a concrete store
holding exactly that row. -/
theorem set_entry_prunes_mod_entry_retains_witness :
    get_entry (set_entry [("T|k".toList, [("a".toList, "1".toList), ("b".toList, "2".toList)])]
        "t".toList (PKey.scalar "k".toList) (some [("a".toList, Value.scalar "9".toList)]))
      "t".toList (PKey.scalar "k".toList) = [("a".toList, Value.scalar "9".toList)] ∧
    get_entry (mod_entry [("T|k".toList, [("a".toList, "1".toList), ("b".toList, "2".toList)])]
        "t".toList (PKey.scalar "k".toList) (some [("a".toList, Value.scalar "9".toList)]))
      "t".toList (PKey.scalar "k".toList) =
      [("a".toList, Value.scalar "9".toList), ("b".toList, Value.scalar "2".toList)] :=
  set_entry_prunes_mod_entry_retains
    [("T|k".toList, [("a".toList, "1".toList), ("b".toList, "2".toList)])]
    "t".toList (PKey.scalar "k".toList) (by decide)

/-- C1 (amended): for a keyspace event on a key `T|r` (with `T`
separator-free), `listen` invokes the handler registered for `T` exactly
once, with arguments `(T, r, freshly fetched row)` — the row key argument
is the raw remainder string `r`, not its image under `deserialize_key`
(the counterexample `listen_row_key_not_deserialized_cex` separates the
two; they agree when `r` has no separator).  Events whose table prefix has
no registered handler, and events whose key contains no separator, invoke
no handler. -/
theorem listen_fires_with_raw_row_key (handlers : List Str) (s : Store) (pre T r : Str)
    (hpre : ':' ∉ pre) (hT : '|' ∉ T) :
    (T ∈ handlers →
      listen handlers s [⟨"pmessage".toList, pre ++ ':' :: (T ++ '|' :: r)⟩] =
        [(T, PKey.scalar r, raw_to_typed (hgetall s (T ++ '|' :: r)))]) ∧
    (T ∉ handlers →
      listen handlers s [⟨"pmessage".toList, pre ++ ':' :: (T ++ '|' :: r)⟩] = []) ∧
    (∀ pre2 key2 : Str, ':' ∉ pre2 → '|' ∉ key2 →
      listen handlers s [⟨"pmessage".toList, pre2 ++ ':' :: key2⟩] = []) := by
  have hproc : processEvent handlers s ⟨"pmessage".toList, pre ++ ':' :: (T ++ '|' :: r)⟩ =
      if T ∈ handlers then
        some (T, PKey.scalar r, raw_to_typed (hgetall s (T ++ '|' :: r)))
      else none := by
    rw [processEvent]
    simp only [if_pos rfl, splitFirstChar_append _ _ _ hpre, splitFirstChar_append _ _ _ hT,
      if_true]
  refine ⟨fun hm => ?_, fun hm => ?_, fun pre2 key2 hp2 hk2 => ?_⟩
  · rw [listen, List.filterMap_cons, hproc, if_pos hm, List.filterMap_nil]
  · rw [listen, List.filterMap_cons, hproc, if_neg hm, List.filterMap_nil]
  · have hp : processEvent handlers s ⟨"pmessage".toList, pre2 ++ ':' :: key2⟩ = none := by
      rw [processEvent]
      simp only [if_pos rfl, splitFirstChar_append _ _ _ hp2, splitFirstChar_none _ _ hk2,
        if_true]
    rw [listen, List.filterMap_cons, hp, List.filterMap_nil]

/-- Witness for `listen_fires_with_raw_row_key`: a registered table, an
unregistered table, and a separator-free key, on one concrete store. -/
theorem listen_fires_with_raw_row_key_witness :
    ("FOO".toList ∈ ["FOO".toList] →
      listen ["FOO".toList] [("FOO|x".toList, [("f".toList, "v".toList)])]
          [⟨"pmessage".toList, "__keyspace@4__".toList ++ ':' :: ("FOO".toList ++ '|' :: "x".toList)⟩] =
        [("FOO".toList, PKey.scalar "x".toList,
          raw_to_typed (hgetall [("FOO|x".toList, [("f".toList, "v".toList)])]
            ("FOO".toList ++ '|' :: "x".toList)))]) ∧
    ("BAR".toList ∉ ["FOO".toList] →
      listen ["FOO".toList] [("FOO|x".toList, [("f".toList, "v".toList)])]
          [⟨"pmessage".toList, "__keyspace@4__".toList ++ ':' :: ("BAR".toList ++ '|' :: "y".toList)⟩] = []) :=
  ⟨((listen_fires_with_raw_row_key ["FOO".toList]
        [("FOO|x".toList, [("f".toList, "v".toList)])]
        "__keyspace@4__".toList "FOO".toList "x".toList (by decide) (by decide)).1),
   ((listen_fires_with_raw_row_key ["FOO".toList]
        [("FOO|x".toList, [("f".toList, "v".toList)])]
        "__keyspace@4__".toList "BAR".toList "y".toList (by decide) (by decide)).2.1)⟩

/-- Counterexample to C1 as stated: for a mutation of the two-segment key
`FOO|a|b`, the handler receives the raw string `"a|b"` as its row-key
argument, which is not `deserialize_key "a|b"` (the tuple `("a", "b")`). -/
theorem listen_row_key_not_deserialized_cex :
    listen ["FOO".toList] [("FOO|a|b".toList, [("f".toList, "v".toList)])]
        [⟨"pmessage".toList, "__keyspace@4__:FOO|a|b".toList⟩] =
      [("FOO".toList, PKey.scalar "a|b".toList, [("f".toList, Value.scalar "v".toList)])] ∧
    PKey.scalar "a|b".toList ≠ deserialize_key "a|b".toList := by
  decide

/-- The `waitLoop` of the init barrier returns index `i` exactly when the
`i`-th delivered item is the first releasing one: a `pmessage` for the
indicator key whose re-read of the indicator is truthy. -/
theorem waitLoop_eq_some_iff (events : List WEvent) (i : Nat) :
    waitLoop events = some i ↔
      (i < events.length ∧ releasing (events.getD i default) = true ∧
        ∀ j < i, releasing (events.getD j default) = false) := by
  induction events generalizing i with
  | nil => simp [waitLoop]
  | cons e rest ih =>
    by_cases hr : releasing e = true
    · rw [waitLoop, if_pos hr]
      cases i with
      | zero => simp [hr]
      | succ n =>
        simp only [Option.some.injEq]
        constructor
        · intro h
          exact absurd h (by omega)
        · rintro ⟨-, -, hall⟩
          have h0 := hall 0 (Nat.succ_pos n)
          rw [List.getD_cons_zero] at h0
          rw [h0] at hr
          cases hr
    · rw [waitLoop, if_neg hr]
      have hre : releasing e = false := by
        revert hr
        cases releasing e <;> simp
      cases i with
      | zero =>
        simp only [Option.map_eq_some']
        constructor
        · rintro ⟨n, -, hn⟩
          exact absurd hn (by omega)
        · rintro ⟨-, h0, -⟩
          rw [List.getD_cons_zero, hre] at h0
          cases h0
      | succ n =>
        have hmap : (waitLoop rest).map (· + 1) = some (n + 1) ↔ waitLoop rest = some n := by
          cases waitLoop rest with
          | none => simp
          | some m =>
            simp only [Option.map_some', Option.some.injEq]
            omega
        rw [hmap, ih]
        constructor
        · rintro ⟨hlen, hrel, hall⟩
          refine ⟨by simpa using Nat.succ_lt_succ hlen, by simpa using hrel, ?_⟩
          intro j hj
          cases j with
          | zero => simpa using hre
          | succ m =>
            rw [List.getD_cons_succ]
            exact hall m (by omega)
        · rintro ⟨hlen, hrel, hall⟩
          refine ⟨by simpa using hlen, by simpa using hrel, ?_⟩
          intro j hj
          have := hall (j + 1) (by omega)
          rw [List.getD_cons_succ] at this
          exact this

/-- C6: the init barrier returns immediately when the indicator is truthy
at call time; otherwise it returns after consuming `i + 1` pubsub items
exactly when item `i` is the first item that is a `pmessage` for the
indicator key *and* finds the indicator truthy on the re-read — an item
whose re-read finds the indicator unset does not release the barrier. -/
theorem wait_for_db_init_barrier (initial : Option Str) (events : List WEvent) :
    (truthy initial = true → wait_for_db_init initial events = WaitOutcome.immediate) ∧
    (truthy initial = false → ∀ i : Nat,
      (wait_for_db_init initial events = WaitOutcome.afterEvents i ↔
        (i < events.length ∧ releasing (events.getD i default) = true ∧
          ∀ j < i, releasing (events.getD j default) = false))) := by
  constructor
  · intro h
    rw [wait_for_db_init, if_pos h]
  · intro h i
    rw [wait_for_db_init, if_neg (by simp [h])]
    cases hw : waitLoop events with
    | none =>
      rw [← waitLoop_eq_some_iff, hw]
      simp
    | some n =>
      rw [← waitLoop_eq_some_iff, hw]
      simp

/-- Witness for `wait_for_db_init_barrier`: an already-set indicator
returns immediately; with the indicator unset, an indicator event whose
re-read is still unset does not release, and the next one, confirmed set,
does (the barrier returns after the second item, index 1). -/
theorem wait_for_db_init_barrier_witness :
    wait_for_db_init (some "1".toList) [] = WaitOutcome.immediate ∧
    wait_for_db_init none
        [⟨"pmessage".toList, "__keyspace@4__:CONFIG_DB_INITIALIZED".toList, none⟩,
         ⟨"pmessage".toList, "__keyspace@4__:CONFIG_DB_INITIALIZED".toList, some "1".toList⟩] =
      WaitOutcome.afterEvents 1 :=
  ⟨(wait_for_db_init_barrier (some "1".toList) []).1 (by decide),
   ((wait_for_db_init_barrier none
        [⟨"pmessage".toList, "__keyspace@4__:CONFIG_DB_INITIALIZED".toList, none⟩,
         ⟨"pmessage".toList, "__keyspace@4__:CONFIG_DB_INITIALIZED".toList, some "1".toList⟩]).2
      (by decide) 1).mpr (by decide)⟩

/-! ## The value codec as a per-column map (for the round-trip claim) -/

/-- The single wire field written by `__typed_to_raw` for one column. -/
def encodeField (p : Str × Value) : Str × Str :=
  match p.2 with
  | .scalar s => (p.1, s)
  | .list xs => (p.1 ++ ['@'], joinChar ',' xs)

theorem encodeField_fst (p : Str × Value) : (encodeField p).1 = pruneName p := by
  cases p with
  | mk c v => cases v <;> rfl

theorem encodeStep_eq_dictInsert (acc : RawHash) (p : Str × Value) :
    encodeStep acc p = dictInsert acc (encodeField p).1 (encodeField p).2 := by
  cases p with
  | mk c v => cases v <;> rfl

/-- The typed column produced by `__raw_to_typed` for one wire field
(`none` for the skipped sentinel field). -/
def decodeField (p : Str × Str) : Option (Str × Value) :=
  if p.1 = nullField then none
  else if endsWithAtSign p.1 then some (p.1.dropLast, Value.list (splitChar ',' p.2))
  else some (p.1, Value.scalar p.2)

theorem decodeStep_eq (acc : TypedRow) (p : Str × Str) :
    decodeStep acc p =
      match decodeField p with
      | none => acc
      | some q => dictInsert acc q.1 q.2 := by
  rw [decodeStep, decodeField]
  by_cases h1 : p.1 = nullField
  · rw [if_pos h1, if_pos h1]
  · rw [if_neg h1, if_neg h1]
    by_cases h2 : endsWithAtSign p.1
    · rw [if_pos h2, if_pos h2]
    · rw [if_neg h2, if_neg h2]

theorem foldl_encodeStep_fresh :
    ∀ (r : TypedRow) (acc : RawHash),
      ((acc ++ r.map encodeField).map Prod.fst).Nodup →
      r.foldl encodeStep acc = acc ++ r.map encodeField := by
  intro r
  induction r with
  | nil => intro acc _; simp
  | cons p r ih =>
    intro acc hnd
    rw [List.map_cons, List.foldl_cons, encodeStep_eq_dictInsert]
    have hfresh : hasKey acc (encodeField p).1 = false := by
      rw [List.map_append, List.map_cons, List.nodup_append] at hnd
      rcases hnd with ⟨-, -, hdisj⟩
      rw [← Bool.not_eq_true, hasKey_true_iff]
      intro hmem
      exact hdisj hmem (List.mem_cons_self _ _)
    rw [dictInsert_fresh _ _ _ hfresh, ih]
    · rw [List.append_assoc]
      rfl
    · rw [List.append_assoc]
      simpa using hnd

theorem typed_to_raw_eq_map (r : TypedRow) (hne : r ≠ [])
    (hnd : ((r.map encodeField).map Prod.fst).Nodup) :
    typed_to_raw r = r.map encodeField := by
  rw [typed_to_raw, if_neg hne]
  exact foldl_encodeStep_fresh r [] (by simpa using hnd)

theorem foldl_decodeStep_fresh :
    ∀ (h : RawHash) (acc : TypedRow),
      ((acc ++ h.filterMap decodeField).map Prod.fst).Nodup →
      h.foldl decodeStep acc = acc ++ h.filterMap decodeField := by
  intro h
  induction h with
  | nil => intro acc _; simp
  | cons p h ih =>
    intro acc hnd
    rw [List.foldl_cons, decodeStep_eq]
    cases hd : decodeField p with
    | none =>
      rw [List.filterMap_cons_none hd] at hnd ⊢
      exact ih acc hnd
    | some q =>
      rw [List.filterMap_cons_some hd] at hnd ⊢
      show List.foldl decodeStep (dictInsert acc q.1 q.2) h = acc ++ q :: h.filterMap decodeField
      have hfresh : hasKey acc q.1 = false := by
        rw [List.map_append, List.map_cons, List.nodup_append] at hnd
        rcases hnd with ⟨-, -, hdisj⟩
        rw [← Bool.not_eq_true, hasKey_true_iff]
        intro hmem
        exact hdisj hmem (List.mem_cons_self _ _)
      rw [dictInsert_fresh _ _ _ hfresh, ih]
      · rw [List.append_assoc]
        rfl
      · rw [List.append_assoc]
        simpa using hnd

theorem raw_to_typed_eq_filterMap (h : RawHash)
    (hnd : ((h.filterMap decodeField).map Prod.fst).Nodup) :
    raw_to_typed h = h.filterMap decodeField := by
  rw [raw_to_typed]
  exact foldl_decodeStep_fresh h [] (by simpa using hnd)

theorem pruneName_inj {c d : Str} {v w : Value}
    (hp : endsWithAtSign c = false) (hq : endsWithAtSign d = false)
    (h : pruneName (c, v) = pruneName (d, w)) : c = d := by
  cases v with
  | scalar s =>
    cases w with
    | scalar t => simpa [pruneName] using h
    | list ys =>
      simp only [pruneName] at h
      rw [h, endsWithAtSign_concat] at hp
      cases hp
  | list xs =>
    cases w with
    | scalar t =>
      simp only [pruneName] at h
      rw [← h, endsWithAtSign_concat] at hq
      cases hq
    | list ys =>
      simp only [pruneName] at h
      have := congrArg List.dropLast h
      simpa using this

theorem encode_keys_nodup (r : TypedRow) (hnd : (r.map Prod.fst).Nodup)
    (hat : ∀ p ∈ r, endsWithAtSign p.1 = false) :
    ((r.map encodeField).map Prod.fst).Nodup := by
  rw [List.map_map]
  have heq : r.map (Prod.fst ∘ encodeField) = r.map pruneName := by
    apply List.map_congr_left
    intro p _
    exact encodeField_fst p
  rw [heq]
  apply List.Nodup.map_on
  · intro p hp q hq hpq
    have h1 : p.1 = q.1 := pruneName_inj (hat p hp) (hat q hq) hpq
    have h2 := getVal_of_mem_nodup hnd hp
    have h3 := getVal_of_mem_nodup hnd hq
    rw [h1] at h2
    rw [h2] at h3
    have h4 : p.2 = q.2 := by
      injection h3
    cases p; cases q
    simp only at h1 h4
    rw [h1, h4]
  · exact hnd.of_map Prod.fst

theorem decodeField_encodeField (p : Str × Value)
    (hat : endsWithAtSign p.1 = false) (hnn : p.1 ≠ nullField)
    (hl : ∀ xs, p.2 = Value.list xs → xs ≠ [] ∧ ∀ x ∈ xs, ',' ∉ x) :
    decodeField (encodeField p) = some p := by
  cases p with
  | mk c v =>
    cases v with
    | scalar s =>
      simp only at hat hnn
      simp [encodeField, decodeField, hnn, hat]
    | list xs =>
      have h1 : (c ++ ['@']) ≠ nullField := by
        intro he
        have h2 := endsWithAtSign_concat c
        rw [he, not_endsWithAtSign_nullField] at h2
        cases h2
      obtain ⟨hx1, hx2⟩ := hl xs rfl
      simp [encodeField, decodeField, h1, endsWithAtSign_concat,
        splitChar_joinChar ',' xs hx1 hx2]

/-- A value that survives the comma-joined wire format: a scalar with no
comma, or a non-empty list whose elements have no comma. -/
def commaFreeVal : Value → Prop
  | .scalar s => ',' ∉ s
  | .list xs => xs ≠ [] ∧ ∀ x ∈ xs, ',' ∉ x

instance commaFreeVal.instDecidable : ∀ v : Value, Decidable (commaFreeVal v)
  | .scalar s => inferInstanceAs (Decidable (',' ∉ s))
  | .list xs => inferInstanceAs (Decidable (xs ≠ [] ∧ ∀ x ∈ xs, ',' ∉ x))

/-- C2 (amended): decoding the encoding of a row is the identity, for rows
that are genuine mappings (no duplicate column names) whose column names do
not end with the reserved suffix `'@'` *and are not the sentinel name
`NULL`*, whose values contain no comma, and whose list values *are
non-empty*.  The two extra conditions are forced by
`raw_typed_roundtrip_cex`: a column named `NULL` is skipped on decode, and
an empty list comes back as `[""]`. -/
theorem raw_typed_roundtrip (r : TypedRow)
    (hnd : (r.map Prod.fst).Nodup)
    (hat : ∀ p ∈ r, endsWithAtSign p.1 = false)
    (hnn : ∀ p ∈ r, p.1 ≠ nullField)
    (hv : ∀ p ∈ r, commaFreeVal p.2) :
    raw_to_typed (typed_to_raw r) = r := by
  by_cases hne : r = []
  · subst hne
    decide
  · have hmap := typed_to_raw_eq_map r hne (encode_keys_nodup r hnd hat)
    have hfm : (r.map encodeField).filterMap decodeField = r := by
      rw [List.filterMap_map]
      have hpt : ∀ p ∈ r, (decodeField ∘ encodeField) p = some p := by
        intro p hp
        refine decodeField_encodeField p (hat p hp) (hnn p hp) ?_
        intro xs hxs
        have := hv p hp
        rw [hxs] at this
        exact this
      calc (r.filterMap (decodeField ∘ encodeField)) = r.filterMap some := by
            apply List.filterMap_congr
            intro p hp
            rw [hpt p hp]
        _ = r := List.filterMap_some r
    rw [hmap, raw_to_typed_eq_filterMap _ (by rw [hfm]; exact hnd), hfm]

/-- Witness for `raw_typed_roundtrip` at the row
`{name: "x", tags: ["a", "b"]}`. -/
theorem raw_typed_roundtrip_witness :
    raw_to_typed (typed_to_raw
        [("name".toList, Value.scalar "x".toList),
         ("tags".toList, Value.list ["a".toList, "b".toList])]) =
      [("name".toList, Value.scalar "x".toList),
       ("tags".toList, Value.list ["a".toList, "b".toList])] :=
  raw_typed_roundtrip
    [("name".toList, Value.scalar "x".toList),
     ("tags".toList, Value.list ["a".toList, "b".toList])]
    (by decide) (by decide) (by decide) (by decide)

/-- Counterexample to C2 as stated: two rows with comma-free values and
suffix-free column names that do not survive the round trip — a row whose
column is named `NULL` (the decoder skips the sentinel field name), and a
row with an empty list value (encoded as `""`, which decodes to `[""]`). -/
theorem raw_typed_roundtrip_cex :
    endsWithAtSign nullField = false ∧
    raw_to_typed (typed_to_raw [(nullField, Value.scalar "x".toList)]) ≠
      [(nullField, Value.scalar "x".toList)] ∧
    endsWithAtSign "c".toList = false ∧
    raw_to_typed (typed_to_raw [("c".toList, Value.list [])]) ≠
      [("c".toList, Value.list [])] := by
  decide

theorem mem_foldl_decodeStep :
    ∀ (h : RawHash) (acc : TypedRow) (p : Str × Value),
      p ∈ h.foldl decodeStep acc → p ∈ acc ∨ ∃ q ∈ h, decodeField q = some p := by
  intro h
  induction h with
  | nil =>
    intro acc p hp
    exact Or.inl hp
  | cons q0 h ih =>
    intro acc p hp
    rw [List.foldl_cons] at hp
    rcases ih _ p hp with hin | ⟨q, hq, hdq⟩
    · rw [decodeStep_eq] at hin
      cases hd : decodeField q0 with
      | none =>
        rw [hd] at hin
        exact Or.inl hin
      | some r =>
        rw [hd] at hin
        rcases mem_dictInsert hin with he | he
        · exact Or.inr ⟨q0, List.mem_cons_self _ _, by rw [hd, he]⟩
        · exact Or.inl he
    · exact Or.inr ⟨q, List.mem_cons_of_mem _ hq, hdq⟩

theorem mem_raw_to_typed {h : RawHash} {p : Str × Value} (hp : p ∈ raw_to_typed h) :
    ∃ q ∈ h, decodeField q = some p := by
  rcases mem_foldl_decodeStep h [] p hp with hin | he
  · simp at hin
  · exact he

/-- A decoded scalar column keeps the raw field name, which therefore does
not end with the list suffix. -/
theorem decodeField_scalar_shape {q : Str × Str} {a x : Str}
    (h : decodeField q = some (a, Value.scalar x)) :
    a = q.1 ∧ endsWithAtSign a = false := by
  rw [decodeField] at h
  by_cases h1 : q.1 = nullField
  · rw [if_pos h1] at h
    cases h
  · rw [if_neg h1] at h
    by_cases h2 : endsWithAtSign q.1
    · rw [if_pos h2] at h
      simp at h
    · rw [if_neg h2] at h
      simp only [Option.some.injEq, Prod.mk.injEq] at h
      refine ⟨h.1.symm, ?_⟩
      rw [← h.1]
      simpa using h2

/-- C10: when the stored row has a scalar column `c` (raw field `c`) and
`set_entry` is given data mapping `c` to a list, the write adds the
suffixed field `c + '@'` but the pruning loop — which only deletes wire
fields of columns absent from the data — leaves the stale raw scalar field
`c` in the hash alongside it. -/
theorem set_entry_stale_scalar_field (s : Store) (t : Str) (k : PKey) (c v : Str)
    (xs : List Str) (d : TypedRow)
    (hc1 : getVal (hgetall s (hashKey t (serialize_key k))) c = some v)
    (hc2 : endsWithAtSign c = false)
    (hc3 : c ≠ nullField)
    (hc4 : hasKey (hgetall s (hashKey t (serialize_key k))) (c ++ ['@']) = false)
    (hd : getVal d c = some (Value.list xs))
    (hdk : (d.map Prod.fst).Nodup)
    (hdn : ∀ p ∈ d, endsWithAtSign p.1 = false) :
    getVal (hgetall (set_entry s t k (some d)) (hashKey t (serialize_key k))) c = some v ∧
    getVal (hgetall (set_entry s t k (some d)) (hashKey t (serialize_key k))) (c ++ ['@']) =
      some (joinChar ',' xs) := by
  have hdc : hasKey d c = true := by
    rw [hasKey_eq_isSome_getVal, hd]
    rfl
  have hne : d ≠ [] := by
    intro he
    rw [he] at hd
    cases hd
  have htr : typed_to_raw d = d.map encodeField :=
    typed_to_raw_eq_map d hne (encode_keys_nodup d hdk hdn)
  -- no encoded field of `d` is named `c` (its column `c` is list-typed)
  have henc_ne_c : ∀ fld ∈ d.map encodeField, fld.1 ≠ c := by
    intro fld hfld
    rcases List.mem_map.mp hfld with ⟨p, hp, hpe⟩
    subst hpe
    cases hpv : p.2 with
    | scalar s0 =>
      intro he
      have h1 : (encodeField p).1 = p.1 := by
        rw [encodeField, hpv]
      rw [h1] at he
      have h2 := getVal_of_mem_nodup hdk hp
      rw [he, hd] at h2
      have h3 := Option.some.inj h2
      rw [hpv] at h3
      cases h3
    | list ys =>
      intro he
      have h1 : (encodeField p).1 = p.1 ++ ['@'] := by
        rw [encodeField, hpv]
      rw [h1] at he
      rw [← he, endsWithAtSign_concat] at hc2
      cases hc2
  -- the prune loop never deletes field `c` nor field `c + '@'`
  have hprune : ∀ p ∈ (raw_to_typed (hgetall s (hashKey t (serialize_key k)))).filter
      (fun p => !(hasKey d p.1)), pruneName p ≠ c ∧ pruneName p ≠ c ++ ['@'] := by
    intro p hp
    rw [List.mem_filter, Bool.not_eq_true', hasKey_eq_isSome_getVal] at hp
    obtain ⟨hmem, hnod⟩ := hp
    cases hpv : p.2 with
    | scalar s0 =>
      have hpn : pruneName p = p.1 := by
        rw [pruneName, hpv]
      rcases mem_raw_to_typed hmem with ⟨q, -, hdq⟩
      have hdq2 : decodeField q = some (p.1, Value.scalar s0) := by
        rw [hdq, ← hpv]
      have hsh := decodeField_scalar_shape hdq2
      constructor
      · intro he
        rw [hpn] at he
        rw [he, hd] at hnod
        simp at hnod
      · intro he
        rw [hpn] at he
        rw [he, endsWithAtSign_concat] at hsh
        cases hsh.2
    | list ys =>
      have hpn : pruneName p = p.1 ++ ['@'] := by
        rw [pruneName, hpv]
      constructor
      · intro he
        rw [hpn] at he
        rw [← he, endsWithAtSign_concat] at hc2
        cases hc2
      · intro he
        rw [hpn] at he
        have hpc : p.1 = c := by
          have := congrArg List.dropLast he
          simpa using this
        rw [hpc, hd] at hnod
        simp at hnod
  simp only [set_entry]
  rw [hgetall_foldl_hdel, hgetall_hmset_self, htr]
  constructor
  · rw [getVal_foldl_removeField pruneName _ c (fun p hp => (hprune p hp).1),
      getVal_foldl_dictInsert_ne _ c henc_ne_c, hc1]
  · rw [getVal_foldl_removeField pruneName _ (c ++ ['@']) (fun p hp => (hprune p hp).2)]
    have hmem : (c ++ ['@'], joinChar ',' xs) ∈ d.map encodeField := by
      rcases getVal_some_mem hd with hm
      have : encodeField (c, Value.list xs) = (c ++ ['@'], joinChar ',' xs) := rfl
      rw [← this]
      exact List.mem_map_of_mem encodeField hm
    rw [getVal_foldl_dictInsert_mem _ _ _ (encode_keys_nodup d hdk hdn) hmem]

/-- Witness for `set_entry_stale_scalar_field`: turning scalar column `c`
into the list `["x", "y"]` leaves raw field `c = "1"` beside `c@ = "x,y"`. -/
theorem set_entry_stale_scalar_field_witness :
    getVal (hgetall (set_entry [("T|k".toList, [("c".toList, "1".toList)])] "t".toList
        (PKey.scalar "k".toList) (some [("c".toList, Value.list ["x".toList, "y".toList])]))
      (hashKey "t".toList (serialize_key (PKey.scalar "k".toList)))) "c".toList =
      some "1".toList ∧
    getVal (hgetall (set_entry [("T|k".toList, [("c".toList, "1".toList)])] "t".toList
        (PKey.scalar "k".toList) (some [("c".toList, Value.list ["x".toList, "y".toList])]))
      (hashKey "t".toList (serialize_key (PKey.scalar "k".toList)))) ("c".toList ++ ['@']) =
      some (joinChar ',' ["x".toList, "y".toList]) :=
  set_entry_stale_scalar_field [("T|k".toList, [("c".toList, "1".toList)])] "t".toList
    (PKey.scalar "k".toList) "c".toList "1".toList ["x".toList, "y".toList]
    [("c".toList, Value.list ["x".toList, "y".toList])]
    (by decide) (by decide) (by decide) (by decide) (by decide) (by decide) (by decide)

/-! ## Well-formed hashes and the empty-data `set_entry` -/

/-- A well-formed hash stores no column in both scalar and list form: no
field name is present together with its `'@'`-suffixed companion.  Every
hash produced by encoding a row whose column names do not end in `'@'` is
well-formed. -/
def RawWF (h : RawHash) : Prop := ∀ p ∈ h, hasKey h (p.1 ++ ['@']) = false

instance RawWF.instDecidable (h : RawHash) : Decidable (RawWF h) :=
  inferInstanceAs (Decidable (∀ p ∈ h, hasKey h (p.1 ++ ['@']) = false))

theorem decodeField_raw_ne_null {q : Str × Str} {r : Str × Value}
    (h : decodeField q = some r) : q.1 ≠ nullField := by
  intro he
  rw [decodeField, if_pos he] at h
  cases h

theorem decodeField_isSome_of_ne_null {q : Str × Str} (h : q.1 ≠ nullField) :
    ∃ r, decodeField q = some r := by
  rw [decodeField, if_neg h]
  by_cases h2 : endsWithAtSign q.1
  · rw [if_pos h2]
    exact ⟨_, rfl⟩
  · rw [if_neg h2]
    exact ⟨_, rfl⟩

/-- The prune loop recomputes exactly the raw field name a decoded column
came from. -/
theorem pruneName_decodeField {q : Str × Str} {r : Str × Value}
    (h : decodeField q = some r) : pruneName r = q.1 := by
  rw [decodeField] at h
  by_cases h1 : q.1 = nullField
  · rw [if_pos h1] at h
    cases h
  · rw [if_neg h1] at h
    by_cases h2 : endsWithAtSign q.1
    · rw [if_pos h2] at h
      have hr := Option.some.inj h
      rw [← hr, pruneName]
      exact eq_concat_at_of_endsWithAtSign h2
    · rw [if_neg h2] at h
      have hr := Option.some.inj h
      rw [← hr, pruneName]

/-- Each decoded column key either keeps the raw field name (scalar form)
or is its `'@'`-stripped version (list form). -/
theorem decodeField_key_shape {q : Str × Str} {r : Str × Value}
    (h : decodeField q = some r) :
    (r.1 = q.1 ∧ endsWithAtSign q.1 = false) ∨ q.1 = r.1 ++ ['@'] := by
  rw [decodeField] at h
  by_cases h1 : q.1 = nullField
  · rw [if_pos h1] at h
    cases h
  · rw [if_neg h1] at h
    by_cases h2 : endsWithAtSign q.1
    · rw [if_pos h2] at h
      have hr := Option.some.inj h
      right
      rw [← hr]
      exact (eq_concat_at_of_endsWithAtSign h2).symm
    · rw [if_neg h2] at h
      have hr := Option.some.inj h
      left
      rw [← hr]
      exact ⟨rfl, by simpa using h2⟩

theorem RawWF_of_cons {q : Str × Str} {h : RawHash} (hwf : RawWF (q :: h)) : RawWF h := by
  intro p hp
  have := hwf p (List.mem_cons_of_mem _ hp)
  rw [hasKey, Bool.or_eq_false_iff] at this
  exact this.2

/-- In a well-formed hash with distinct field names, the decoded columns
have pairwise distinct names (no column is produced twice). -/
theorem decode_keys_nodup :
    ∀ h : RawHash, (h.map Prod.fst).Nodup → RawWF h →
      ((h.filterMap decodeField).map Prod.fst).Nodup := by
  intro h
  induction h with
  | nil =>
    intro _ _
    simp
  | cons q h ih =>
    intro hnd hwf
    rw [List.map_cons, List.nodup_cons] at hnd
    cases hd : decodeField q with
    | none =>
      rw [List.filterMap_cons_none hd]
      exact ih hnd.2 (RawWF_of_cons hwf)
    | some r =>
      rw [List.filterMap_cons_some hd, List.map_cons, List.nodup_cons]
      refine ⟨?_, ih hnd.2 (RawWF_of_cons hwf)⟩
      intro hmem
      rcases List.mem_map.mp hmem with ⟨p, hpmem, hpk⟩
      rcases List.mem_filterMap.mp hpmem with ⟨q2, hq2, hdq2⟩
      rcases decodeField_key_shape hd with ⟨hk1, hat1⟩ | hk1
      · rcases decodeField_key_shape hdq2 with ⟨hk2, -⟩ | hk2
        · -- both scalar form: the two raw fields share a name
          apply hnd.1
          rw [← hk1, ← hpk, hk2]
          exact List.mem_map.mpr ⟨q2, hq2, rfl⟩
        · -- `q` scalar form, `q2` list form: `q.1` and `q.1 ++ '@'` coexist
          have hmem2 : hasKey h (q.1 ++ ['@']) = true := by
            rw [hasKey_true_iff, ← hk1, ← hpk, ← hk2]
            exact List.mem_map.mpr ⟨q2, hq2, rfl⟩
          have hc := hwf q (List.mem_cons_self _ _)
          rw [hasKey, Bool.or_eq_false_iff] at hc
          rw [hc.2] at hmem2
          cases hmem2
      · rcases decodeField_key_shape hdq2 with ⟨hk2, -⟩ | hk2
        · -- `q` list form, `q2` scalar form
          have hc := hwf q2 (List.mem_cons_of_mem _ hq2)
          rw [hasKey, Bool.or_eq_false_iff] at hc
          have h2 := hc.1
          rw [← hk2, hpk, ← hk1] at h2
          simp at h2
        · -- both list form: the two raw fields share a name
          apply hnd.1
          rw [hk1, ← hpk, ← hk2]
          exact List.mem_map.mpr ⟨q2, hq2, rfl⟩

theorem removeField_eq_filter (h : RawHash) (f : Str) :
    removeField h f = h.filter (fun p => !(p.1 = f)) := by
  induction h with
  | nil => rfl
  | cons p rest ih =>
    by_cases hp : p.1 = f
    · rw [removeField, if_pos hp, ih, List.filter_cons]
      simp [hp]
    · rw [removeField, if_neg hp, ih, List.filter_cons]
      simp [hp]

theorem foldl_removeField_eq_filter {α : Type} (nm : α → Str) :
    ∀ (L : List α) (h : RawHash),
      L.foldl (fun hh a => removeField hh (nm a)) h =
        h.filter (fun p => !(L.any (fun a => nm a = p.1))) := by
  intro L
  induction L with
  | nil =>
    intro h
    simp
  | cons a L ih =>
    intro h
    rw [List.foldl_cons, ih, removeField_eq_filter, List.filter_filter]
    apply List.filter_congr
    intro p _
    simp only [List.any_cons, Bool.not_or]
    rw [Bool.and_comm]
    congr 1
    simp [eq_comm]

theorem dictInsert_null_filter (P : Str → Bool) :
    ∀ h : RawHash, (h.map Prod.fst).Nodup →
      (∀ p ∈ h, p.1 ≠ nullField → P p.1 = false) → P nullField = true →
      (dictInsert h nullField nullField).filter (fun p => P p.1) =
        [(nullField, nullField)] := by
  intro h
  induction h with
  | nil =>
    intro _ _ hN
    simp [dictInsert, List.filter_cons, hN]
  | cons q h ih =>
    intro hnd hfalse hN
    rw [List.map_cons, List.nodup_cons] at hnd
    by_cases hq : q.1 = nullField
    · rw [dictInsert, if_pos hq, List.filter_cons]
      simp only [hN, if_pos]
      have hempty : h.filter (fun p => P p.1) = [] := by
        apply List.filter_eq_nil_iff.mpr
        intro p hp
        have hpn : p.1 ≠ nullField := by
          intro he
          apply hnd.1
          rw [hq, ← he]
          exact List.mem_map.mpr ⟨p, hp, rfl⟩
        simp [hfalse p (List.mem_cons_of_mem _ hp) hpn]
      rw [hempty]
    · rw [dictInsert, if_neg hq, List.filter_cons]
      have hPq : P q.1 = false := hfalse q (List.mem_cons_self _ _) hq
      simp only [hPq]
      exact ih hnd.2 (fun p hp hpn => hfalse p (List.mem_cons_of_mem _ hp) hpn) hN

/-- C8: `set_entry` with empty data on a well-formed stored hash leaves the
row existing as exactly the sentinel hash, and a subsequent `get_entry`
returns the empty mapping — distinguishable from an absent row, whose key
would not exist. -/
theorem set_entry_empty_data (s : Store) (t : Str) (k : PKey)
    (hnd : ((hgetall s (hashKey t (serialize_key k))).map Prod.fst).Nodup)
    (hwf : RawWF (hgetall s (hashKey t (serialize_key k)))) :
    get_entry (set_entry s t k (some [])) t k = [] ∧
    hgetall (set_entry s t k (some [])) (hashKey t (serialize_key k)) =
      [(nullField, nullField)] ∧
    hasKey (set_entry s t k (some [])) (hashKey t (serialize_key k)) = true := by
  have hfm := raw_to_typed_eq_filterMap (hgetall s (hashKey t (serialize_key k)))
    (decode_keys_nodup _ hnd hwf)
  have hhash : hgetall (set_entry s t k (some [])) (hashKey t (serialize_key k)) =
      [(nullField, nullField)] := by
    simp only [set_entry]
    rw [hgetall_foldl_hdel, hgetall_hmset_self, foldl_removeField_eq_filter]
    have hfilter : (raw_to_typed (hgetall s (hashKey t (serialize_key k)))).filter
        (fun p => !(hasKey ([] : TypedRow) p.1)) =
        raw_to_typed (hgetall s (hashKey t (serialize_key k))) := by
      apply List.filter_eq_self.mpr
      intro p _
      rfl
    rw [hfilter]
    have hfold : (typed_to_raw []).foldl (fun h p => dictInsert h p.1 p.2)
        (hgetall s (hashKey t (serialize_key k))) =
        dictInsert (hgetall s (hashKey t (serialize_key k))) nullField nullField := by
      rfl
    rw [hfold]
    refine dictInsert_null_filter
      (fun x => !((raw_to_typed (hgetall s (hashKey t (serialize_key k)))).any
        (fun a => decide (pruneName a = x)))) _ hnd ?_ ?_
    · -- every non-sentinel stored field is recomputed (and thus deleted) by the prune loop
      intro p hp hpn
      have hdec := decodeField_isSome_of_ne_null hpn
      rcases hdec with ⟨r, hr⟩
      have hmem : r ∈ raw_to_typed (hgetall s (hashKey t (serialize_key k))) := by
        rw [hfm]
        exact List.mem_filterMap.mpr ⟨p, hp, hr⟩
      rw [Bool.not_eq_false', List.any_eq_true]
      exact ⟨r, hmem, by simp [pruneName_decodeField hr]⟩
    · -- the sentinel field itself is never a prune target
      rw [Bool.not_eq_true', List.any_eq_false]
      intro r hr
      rw [hfm] at hr
      rcases List.mem_filterMap.mp hr with ⟨q, -, hq⟩
      simp [pruneName_decodeField hq, decodeField_raw_ne_null hq]
  refine ⟨?_, hhash, ?_⟩
  · rw [get_entry, hhash]
    decide
  · rw [hasKey_eq_isSome_getVal]
    rw [hgetall] at hhash
    cases hgv : getVal (set_entry s t k (some [])) (hashKey t (serialize_key k)) with
    | none =>
      rw [hgv] at hhash
      cases hhash
    | some w => rfl

/-- Witness for `set_entry_empty_data` on a store holding the row
`{a: 1}` of table `T`. -/
theorem set_entry_empty_data_witness :
    get_entry (set_entry [("T|k".toList, [("a".toList, "1".toList)])] "t".toList
        (PKey.scalar "k".toList) (some [])) "t".toList (PKey.scalar "k".toList) = [] ∧
    hgetall (set_entry [("T|k".toList, [("a".toList, "1".toList)])] "t".toList
        (PKey.scalar "k".toList) (some []))
      (hashKey "t".toList (serialize_key (PKey.scalar "k".toList))) =
      [(nullField, nullField)] ∧
    hasKey (set_entry [("T|k".toList, [("a".toList, "1".toList)])] "t".toList
        (PKey.scalar "k".toList) (some []))
      (hashKey "t".toList (serialize_key (PKey.scalar "k".toList))) = true :=
  set_entry_empty_data [("T|k".toList, [("a".toList, "1".toList)])] "t".toList
    (PKey.scalar "k".toList) (by decide) (by decide)

/-! ## `mod_config`: deletion and frame lemmas -/

theorem getVal_foldl_delKey :
    ∀ (L : List Str) (s : Store) (K : Str),
      getVal (L.foldl (fun st k => delKey st k) s) K =
        if K ∈ L then none else getVal s K := by
  intro L
  induction L with
  | nil =>
    intro s K
    simp
  | cons a L ih =>
    intro s K
    rw [List.foldl_cons, ih]
    by_cases hKL : K ∈ L
    · rw [if_pos hKL, if_pos (List.mem_cons_of_mem _ hKL)]
    · rw [if_neg hKL]
      by_cases hKa : K = a
      · rw [hKa, getVal_delKey_self, if_pos (List.mem_cons_self _ _)]
      · rw [getVal_delKey_ne _ _ _ hKa, if_neg (by simp [hKa, hKL])]

theorem getVal_delete_table (s : Store) (T K : Str) :
    getVal (delete_table s T) K =
      if K ∈ (s.map Prod.fst).filter (fun x => startsWithStr (upperStr T ++ ['|']) x)
      then none else getVal s K := by
  rw [delete_table, getVal_foldl_delKey]

theorem hasKey_delete_table_of_pref (s : Store) (T K : Str)
    (hpref : startsWithStr (upperStr T ++ ['|']) K = true) :
    hasKey (delete_table s T) K = false := by
  rw [hasKey_eq_isSome_getVal, getVal_delete_table]
  by_cases hmem : K ∈ (s.map Prod.fst).filter (fun x => startsWithStr (upperStr T ++ ['|']) x)
  · rw [if_pos hmem]
    rfl
  · rw [if_neg hmem]
    have hout : hasKey s K = false := by
      rw [← Bool.not_eq_true, hasKey_true_iff]
      intro hin
      exact hmem (List.mem_filter.mpr ⟨hin, hpref⟩)
    rw [getVal_eq_none_of_hasKey_false hout]
    rfl

theorem getVal_delete_table_ne (s : Store) (T K : Str)
    (hpref : startsWithStr (upperStr T ++ ['|']) K = false) :
    getVal (delete_table s T) K = getVal s K := by
  rw [getVal_delete_table, if_neg]
  intro hmem
  rw [(List.mem_filter.mp hmem).2] at hpref
  cases hpref

theorem hasKey_delete_table_absent (s : Store) (T K : Str)
    (h : hasKey s K = false) : hasKey (delete_table s T) K = false := by
  rw [hasKey_eq_isSome_getVal, getVal_delete_table]
  by_cases hmem : K ∈ (s.map Prod.fst).filter (fun x => startsWithStr (upperStr T ++ ['|']) x)
  · rw [if_pos hmem]
    rfl
  · rw [if_neg hmem, getVal_eq_none_of_hasKey_false h]
    rfl

theorem getVal_mod_entry_ne (s : Store) (T : Str) (k : PKey) (d : Option TypedRow)
    (K : Str) (hne : K ≠ hashKey T (serialize_key k)) :
    getVal (mod_entry s T k d) K = getVal s K := by
  cases d with
  | none =>
    simp only [mod_entry]
    exact getVal_delKey_ne _ _ _ hne
  | some d0 =>
    simp only [mod_entry, hmset]
    exact getVal_storeSet_ne _ _ _ _ hne

theorem getVal_rows_foldl_ne (T : Str) (K : Str) (rows : List (PKey × Option TypedRow))
    (hK : ∀ q ∈ rows, K ≠ hashKey T (serialize_key q.1)) :
    ∀ s : Store, getVal (rows.foldl (fun st q => mod_entry st T q.1 q.2) s) K = getVal s K := by
  induction rows with
  | nil =>
    intro s
    rfl
  | cons q rows ih =>
    intro s
    rw [List.foldl_cons, ih (fun b hb => hK b (List.mem_cons_of_mem _ hb)),
      getVal_mod_entry_ne _ _ _ _ _ (hK q (List.mem_cons_self _ _))]

theorem mod_config_append (s : Store) (l1 l2 : Config) :
    mod_config s (l1 ++ l2) = mod_config (mod_config s l1) l2 := by
  rw [mod_config, mod_config, mod_config, List.foldl_append]

theorem mod_config_cons_none (s : Store) (T : Str) (l : Config) :
    mod_config s ((T, none) :: l) = mod_config (delete_table s T) l := rfl

theorem mod_config_cons_some (s : Store) (T : Str)
    (rows : List (PKey × Option TypedRow)) (l : Config) :
    mod_config s ((T, some rows) :: l) =
      mod_config (rows.foldl (fun st q => mod_entry st T q.1 q.2) s) l := rfl

/-- One `mod_config` argument entry does not touch flat key `K`: a deleted
table's prefix does not cover `K`, and no written row of a present table
lives at `K`. -/
def cfgNoTouch (p : Str × Option (List (PKey × Option TypedRow))) (K : Str) : Prop :=
  match p.2 with
  | none => startsWithStr (upperStr p.1 ++ ['|']) K = false
  | some rows => ∀ q ∈ rows, K ≠ hashKey p.1 (serialize_key q.1)

instance cfgNoTouch.instDecidable :
    ∀ (p : Str × Option (List (PKey × Option TypedRow))) (K : Str),
      Decidable (cfgNoTouch p K)
  | (T, none), K =>
    inferInstanceAs (Decidable (startsWithStr (upperStr T ++ ['|']) K = false))
  | (T, some rows), K =>
    inferInstanceAs (Decidable (∀ q ∈ rows, K ≠ hashKey T (serialize_key q.1)))

/-- The serialized row keys of one `mod_config` table entry are pairwise
distinct (vacuous for a deleted table) — the argument is a mapping. -/
def rowKeysNodup (p : Str × Option (List (PKey × Option TypedRow))) : Prop :=
  match p.2 with
  | none => True
  | some rows => (rows.map (fun q => serialize_key q.1)).Nodup

instance rowKeysNodup.instDecidable :
    ∀ p : Str × Option (List (PKey × Option TypedRow)), Decidable (rowKeysNodup p)
  | (T, none) => inferInstanceAs (Decidable True)
  | (T, some rows) =>
    inferInstanceAs
      (Decidable ((rows.map (fun q : PKey × Option TypedRow => serialize_key q.1)).Nodup))

theorem getVal_mod_config_frame (K : Str) :
    ∀ cfg : Config, (∀ p ∈ cfg, cfgNoTouch p K) →
      ∀ s : Store, getVal (mod_config s cfg) K = getVal s K := by
  intro cfg
  induction cfg with
  | nil =>
    intro _ s
    rfl
  | cons p cfg ih =>
    intro hno s
    obtain ⟨T, d⟩ := p
    cases d with
    | none =>
      rw [mod_config_cons_none, ih (fun b hb => hno b (List.mem_cons_of_mem _ hb)),
        getVal_delete_table_ne _ _ _ (hno _ (List.mem_cons_self _ _))]
    | some rows =>
      rw [mod_config_cons_some, ih (fun b hb => hno b (List.mem_cons_of_mem _ hb)),
        getVal_rows_foldl_ne _ _ _ (hno _ (List.mem_cons_self _ _))]

theorem hasKey_mod_config_absent (K : Str) :
    ∀ cfg : Config,
      (∀ p ∈ cfg, ∀ rows, p.2 = some rows →
        ∀ q ∈ rows, hashKey p.1 (serialize_key q.1) ≠ K) →
      ∀ s : Store, hasKey s K = false → hasKey (mod_config s cfg) K = false := by
  intro cfg
  induction cfg with
  | nil =>
    intro _ s h
    exact h
  | cons p cfg ih =>
    intro hno s h
    obtain ⟨T, d⟩ := p
    cases d with
    | none =>
      rw [mod_config_cons_none]
      exact ih (fun b hb => hno b (List.mem_cons_of_mem _ hb)) _
        (hasKey_delete_table_absent _ _ _ h)
    | some rows =>
      rw [mod_config_cons_some]
      refine ih (fun b hb => hno b (List.mem_cons_of_mem _ hb)) _ ?_
      rw [hasKey_eq_isSome_getVal, getVal_rows_foldl_ne _ _ _
        (fun q hq => Ne.symm (hno _ (List.mem_cons_self _ _) rows rfl q hq)),
        ← hasKey_eq_isSome_getVal]
      exact h

theorem startsWithStr_append_self : ∀ (a x : Str),
    startsWithStr (a ++ ['|']) (a ++ '|' :: x) = true := by
  intro a
  induction a with
  | nil =>
    intro x
    simp [startsWithStr]
  | cons c a2 ih =>
    intro x
    rw [List.cons_append, List.cons_append, startsWithStr]
    simp [ih]

/-- Two separator-free table prefixes that head the same flat key are
equal: the first separator position determines the table name. -/
theorem sepfreePrefixEq :
    ∀ (a b : Str), '|' ∉ a → '|' ∉ b →
      ∀ x : Str, startsWithStr (a ++ ['|']) (b ++ '|' :: x) = true → a = b := by
  intro a
  induction a with
  | nil =>
    intro b ha hb x h
    cases b with
    | nil => rfl
    | cons c b2 =>
      simp only [List.mem_cons, not_or] at hb
      rw [List.nil_append, List.cons_append, startsWithStr, Bool.and_eq_true,
        decide_eq_true_eq] at h
      exact absurd h.1 hb.1
  | cons c a2 ih =>
    intro b ha hb x h
    simp only [List.mem_cons, not_or] at ha
    cases b with
    | nil =>
      rw [List.cons_append, List.nil_append, startsWithStr, Bool.and_eq_true,
        decide_eq_true_eq] at h
      exact absurd h.1.symm ha.1
    | cons c2 b2 =>
      simp only [List.mem_cons, not_or] at hb
      rw [List.cons_append, List.cons_append, startsWithStr, Bool.and_eq_true,
        decide_eq_true_eq] at h
      rw [h.1, ih b2 ha.2 hb.2 x h.2]

theorem hashKey_eq_parts {a b x y : Str} (ha : '|' ∉ a) (hb : '|' ∉ b)
    (h : a ++ '|' :: x = b ++ '|' :: y) : a = b ∧ x = y := by
  have hpref : startsWithStr (a ++ ['|']) (b ++ '|' :: y) = true := by
    rw [← h]
    exact startsWithStr_append_self a x
  have hab := sepfreePrefixEq a b ha hb y hpref
  subst hab
  refine ⟨rfl, ?_⟩
  simpa using h

/-- C5: `mod_config` is an incremental merge.  For a config whose table
names are separator-free and distinct (after upper-casing) and whose row
keys are distinct within each table: a table mapped to absent has every one
of its rows (every key under its prefix) deleted; a row mapped to absent
inside a present table is deleted; and every key the config does not
mention — not under a deleted table's prefix and not the flat key of a
written row — is left unchanged. -/
theorem mod_config_incremental (s : Store) (cfg : Config)
    (hsep : ∀ p ∈ cfg, '|' ∉ upperStr p.1)
    (hndT : (cfg.map (fun p => upperStr p.1)).Nodup)
    (hndR : ∀ p ∈ cfg, rowKeysNodup p) :
    (∀ T, (T, none) ∈ cfg → ∀ K, startsWithStr (upperStr T ++ ['|']) K = true →
      hasKey (mod_config s cfg) K = false) ∧
    (∀ T rows k, (T, some rows) ∈ cfg → (k, none) ∈ rows →
      hasKey (mod_config s cfg) (hashKey T (serialize_key k)) = false) ∧
    (∀ K, (∀ p ∈ cfg, cfgNoTouch p K) →
      hgetall (mod_config s cfg) K = hgetall s K) := by
  refine ⟨?_, ?_, ?_⟩
  · intro T hT K hpref
    rcases List.append_of_mem hT with ⟨l1, l2, hdec⟩
    subst hdec
    have hTl2 : upperStr T ∉ l2.map (fun p => upperStr p.1) := by
      rw [List.map_append, List.map_cons, List.nodup_append] at hndT
      exact (List.nodup_cons.mp hndT.2.1).1
    rw [mod_config_append, mod_config_cons_none]
    refine hasKey_mod_config_absent K l2 ?_ _ (hasKey_delete_table_of_pref _ _ _ hpref)
    intro p hp rows hrows q hq heq
    rw [← heq] at hpref
    have hTeq : upperStr T = upperStr p.1 := by
      refine sepfreePrefixEq (upperStr T) (upperStr p.1)
        (hsep (T, none) (List.mem_append_right _ (List.mem_cons_self _ _)))
        (hsep p (List.mem_append_right _ (List.mem_cons_of_mem _ hp)))
        (serialize_key q.1) ?_
      exact hpref
    apply hTl2
    rw [hTeq]
    exact List.mem_map.mpr ⟨p, hp, rfl⟩
  · intro T rows k hT hk
    rcases List.append_of_mem hT with ⟨l1, l2, hdec⟩
    subst hdec
    have hTl2 : upperStr T ∉ l2.map (fun p => upperStr p.1) := by
      rw [List.map_append, List.map_cons, List.nodup_append] at hndT
      exact (List.nodup_cons.mp hndT.2.1).1
    have hsepT : '|' ∉ upperStr T :=
      hsep (T, some rows) (List.mem_append_right _ (List.mem_cons_self _ _))
    rw [mod_config_append, mod_config_cons_some]
    refine hasKey_mod_config_absent _ l2 ?_ _ ?_
    · intro p hp rows2 hrows2 q hq heq
      have hparts := hashKey_eq_parts
        (hsep p (List.mem_append_right _ (List.mem_cons_of_mem _ hp))) hsepT heq
      apply hTl2
      rw [← hparts.1]
      exact List.mem_map.mpr ⟨p, hp, rfl⟩
    · rcases List.append_of_mem hk with ⟨r1, r2, hrdec⟩
      have hndRrows : (rows.map (fun q => serialize_key q.1)).Nodup :=
        hndR (T, some rows) (List.mem_append_right _ (List.mem_cons_self _ _))
      rw [hrdec] at hndRrows
      have hkr2 : serialize_key k ∉ r2.map (fun q : PKey × Option TypedRow => serialize_key q.1) := by
        rw [List.map_append, List.map_cons, List.nodup_append] at hndRrows
        exact (List.nodup_cons.mp hndRrows.2.1).1
      rw [hrdec, List.foldl_append, List.foldl_cons]
      rw [hasKey_eq_isSome_getVal, getVal_rows_foldl_ne T _ r2 ?_, ← hasKey_eq_isSome_getVal]
      · simp only [mod_entry]
        exact hasKey_delKey_self _ _
      · intro q hq heq
        have hparts := hashKey_eq_parts hsepT hsepT heq
        apply hkr2
        rw [hparts.2]
        exact List.mem_map.mpr ⟨q, hq, rfl⟩
  · intro K hno
    rw [hgetall, hgetall, getVal_mod_config_frame K cfg hno]

/-- Witness for `mod_config_incremental` on the store
`{T|a, U|b, V|c}` with the config `{t: absent, u: {b: absent}}`: table `T`
is emptied, row `U|b` is deleted, and the untouched key `V|c` keeps its
hash. -/
theorem mod_config_incremental_witness :
    hasKey (mod_config
        [("T|a".toList, [("x".toList, "1".toList)]),
         ("U|b".toList, [("y".toList, "2".toList)]),
         ("V|c".toList, [("z".toList, "3".toList)])]
        [("t".toList, none), ("u".toList, some [(PKey.scalar "b".toList, none)])])
      "T|a".toList = false ∧
    hasKey (mod_config
        [("T|a".toList, [("x".toList, "1".toList)]),
         ("U|b".toList, [("y".toList, "2".toList)]),
         ("V|c".toList, [("z".toList, "3".toList)])]
        [("t".toList, none), ("u".toList, some [(PKey.scalar "b".toList, none)])])
      (hashKey "u".toList (serialize_key (PKey.scalar "b".toList))) = false ∧
    hgetall (mod_config
        [("T|a".toList, [("x".toList, "1".toList)]),
         ("U|b".toList, [("y".toList, "2".toList)]),
         ("V|c".toList, [("z".toList, "3".toList)])]
        [("t".toList, none), ("u".toList, some [(PKey.scalar "b".toList, none)])])
      "V|c".toList =
      hgetall
        [("T|a".toList, [("x".toList, "1".toList)]),
         ("U|b".toList, [("y".toList, "2".toList)]),
         ("V|c".toList, [("z".toList, "3".toList)])]
        "V|c".toList :=
  ⟨(mod_config_incremental
      [("T|a".toList, [("x".toList, "1".toList)]),
       ("U|b".toList, [("y".toList, "2".toList)]),
       ("V|c".toList, [("z".toList, "3".toList)])]
      [("t".toList, none), ("u".toList, some [(PKey.scalar "b".toList, none)])]
      (by decide) (by decide) (by decide)).1 "t".toList (by decide) "T|a".toList (by decide),
   (mod_config_incremental
      [("T|a".toList, [("x".toList, "1".toList)]),
       ("U|b".toList, [("y".toList, "2".toList)]),
       ("V|c".toList, [("z".toList, "3".toList)])]
      [("t".toList, none), ("u".toList, some [(PKey.scalar "b".toList, none)])]
      (by decide) (by decide) (by decide)).2.1 "u".toList [(PKey.scalar "b".toList, none)]
     (PKey.scalar "b".toList) (by decide) (by decide),
   (mod_config_incremental
      [("T|a".toList, [("x".toList, "1".toList)]),
       ("U|b".toList, [("y".toList, "2".toList)]),
       ("V|c".toList, [("z".toList, "3".toList)])]
      [("t".toList, none), ("u".toList, some [(PKey.scalar "b".toList, none)])]
      (by decide) (by decide) (by decide)).2.2 "V|c".toList (by decide)⟩

end ConfigDB
